import Mathlib

/-!
Verification of the comment-stripping scanner from
`src/comment-stripping/src/lib.rs` (`Obfuscator::obfuscate`).

The scanner is embedded shallowly: the Rust loop over a peekable character
iterator becomes the recursive function `run`, which takes the current
`State`, the previously consumed character (`Option Char`, the Rust
`prev_char`), and the remaining input, and returns the produced output
together with the final state and final `prev_char`.  Consuming the peeked
character (the two-character delimiters `//`, `/*`, `*/`) is modelled by
recursing on the tail of the tail.  `obfuscate` is `run` started in
`State.Code` with no previous character, exactly as the Rust function
initializes its locals.
-/

namespace CommentStripping

/-- States of the obfuscator's state machine, mirroring the Rust `enum State`:
normal code, single-line comment, multi-line comment, and string literal
carrying the quote character that opened it. -/
inductive State : Type
  | Code : State
  | SingleLineComment : State
  | MultiLineComment : State
  | String : Char → State
deriving DecidableEq, Repr

/-- One pass of the Rust `while let Some(ch) = chars.next()` loop, from a given
state, previous character and remaining input.  Returns the output characters
produced, the final state and the final previous character. -/
def run : State → Option Char → List Char → List Char × State × Option Char
  | s, p, [] => ([], s, p)
  | State.Code, _, ch :: rest =>
    if ch = '/' then
      match rest with
      | next :: rest2 =>
        if next = '/' then
          run State.SingleLineComment (some ch) rest2
        else if next = '*' then
          run State.MultiLineComment (some ch) rest2
        else
          let r := run State.Code (some ch) (next :: rest2)
          (ch :: r.1, r.2)
      | [] => ([ch], State.Code, some ch)
    else if ch = '"' ∨ ch = '\'' then
      let r := run (State.String ch) (some ch) rest
      (ch :: r.1, r.2)
    else
      let r := run State.Code (some ch) rest
      (ch :: r.1, r.2)
  | State.SingleLineComment, _, ch :: rest =>
    if ch = '\n' then
      let r := run State.Code (some ch) rest
      (ch :: r.1, r.2)
    else
      run State.SingleLineComment (some ch) rest
  | State.MultiLineComment, _, ch :: rest =>
    if ch = '*' then
      match rest with
      | next :: rest2 =>
        if next = '/' then
          run State.Code (some ch) rest2
        else
          run State.MultiLineComment (some ch) (next :: rest2)
      | [] => ([], State.MultiLineComment, some ch)
    else
      run State.MultiLineComment (some ch) rest
  | State.String q, p, ch :: rest =>
    if ch = q ∧ p ≠ some '\\' then
      let r := run State.Code (some ch) rest
      (ch :: r.1, r.2)
    else
      let r := run (State.String q) (some ch) rest
      (ch :: r.1, r.2)
termination_by _ _ l => l.length
decreasing_by all_goals (simp [List.length_cons]; try omega)

/-- The Rust entry point `Obfuscator::obfuscate`: start in `Code` with no
previous character and return the accumulated output. -/
def obfuscate (input : List Char) : List Char :=
  (run State.Code none input).1

example : obfuscate ("int x = 42; // c\nint y = 43;".data) = ("int x = 42; \nint y = 43;".data) := by
  simp +decide [obfuscate, run]

example : obfuscate ("// Comment\n/* Another comment */".data) = ("\n".data) := by
  simp +decide [obfuscate, run]

example : obfuscate ("char s = \"// not a comment\";".data) = ("char s = \"// not a comment\";".data) := by
  simp +decide [obfuscate, run]

/-- Equation: on empty input the loop exits immediately. -/
theorem run_nil (s : State) (p : Option Char) : run s p [] = ([], s, p) := by
  cases s <;> rw [run.eq_def]

/-- Equation: in `Code`, a slash peeking at a slash consumes both and enters the
single-line comment state, emitting nothing. -/
theorem run_code_slash_slash (p : Option Char) (rest2 : List Char) :
    run State.Code p ('/' :: '/' :: rest2) = run State.SingleLineComment (some '/') rest2 := by
  rw [run.eq_def]; simp

/-- Equation: in `Code`, a slash peeking at a star consumes both and enters the
multi-line comment state, emitting nothing. -/
theorem run_code_slash_star (p : Option Char) (rest2 : List Char) :
    run State.Code p ('/' :: '*' :: rest2) = run State.MultiLineComment (some '/') rest2 := by
  rw [run.eq_def]; simp

/-- Equation: in `Code`, a slash not followed by a slash or star is emitted and
the state stays `Code`. -/
theorem run_code_slash_other (p : Option Char) (next : Char) (rest2 : List Char)
    (h1 : next ≠ '/') (h2 : next ≠ '*') :
    run State.Code p ('/' :: next :: rest2) =
      ('/' :: (run State.Code (some '/') (next :: rest2)).1,
        (run State.Code (some '/') (next :: rest2)).2) := by
  rw [run.eq_def]; simp [h1, h2]

/-- Equation: in `Code`, a slash at the very end of input is emitted. -/
theorem run_code_slash_nil (p : Option Char) :
    run State.Code p ['/'] = (['/'], State.Code, some '/') := by
  rw [run.eq_def]; simp

/-- Equation: in `Code`, a quote character is emitted and opens a literal. -/
theorem run_code_quote (p : Option Char) (ch : Char) (rest : List Char)
    (h1 : ch ≠ '/') (h2 : ch = '"' ∨ ch = '\'') :
    run State.Code p (ch :: rest) =
      (ch :: (run (State.String ch) (some ch) rest).1,
        (run (State.String ch) (some ch) rest).2) := by
  rw [run.eq_def]; simp [h1, h2]

/-- Equation: in `Code`, any other character is emitted and the state stays
`Code`. -/
theorem run_code_other (p : Option Char) (ch : Char) (rest : List Char)
    (h1 : ch ≠ '/') (h2 : ¬(ch = '"' ∨ ch = '\'')) :
    run State.Code p (ch :: rest) =
      (ch :: (run State.Code (some ch) rest).1, (run State.Code (some ch) rest).2) := by
  rw [run.eq_def]; simp [h1, h2]

/-- Equation: in a single-line comment, a newline is emitted and the state
returns to `Code`. -/
theorem run_slc_newline (p : Option Char) (rest : List Char) :
    run State.SingleLineComment p ('\n' :: rest) =
      ('\n' :: (run State.Code (some '\n') rest).1, (run State.Code (some '\n') rest).2) := by
  rw [run.eq_def]; simp

/-- Equation: in a single-line comment, any non-newline character is discarded. -/
theorem run_slc_other (p : Option Char) (ch : Char) (rest : List Char) (h : ch ≠ '\n') :
    run State.SingleLineComment p (ch :: rest) =
      run State.SingleLineComment (some ch) rest := by
  rw [run.eq_def]; simp [h]

/-- Equation: in a multi-line comment, a star peeking at a slash consumes both
and returns to `Code`, emitting nothing. -/
theorem run_mlc_star_slash (p : Option Char) (rest2 : List Char) :
    run State.MultiLineComment p ('*' :: '/' :: rest2) = run State.Code (some '*') rest2 := by
  rw [run.eq_def]; simp

/-- Equation: in a multi-line comment, a star not followed by a slash is
discarded. -/
theorem run_mlc_star_other (p : Option Char) (next : Char) (rest2 : List Char)
    (h : next ≠ '/') :
    run State.MultiLineComment p ('*' :: next :: rest2) =
      run State.MultiLineComment (some '*') (next :: rest2) := by
  rw [run.eq_def]; simp [h]

/-- Equation: in a multi-line comment, a star at the very end of input is
discarded and the scan stops inside the comment. -/
theorem run_mlc_star_nil (p : Option Char) :
    run State.MultiLineComment p ['*'] = ([], State.MultiLineComment, some '*') := by
  rw [run.eq_def]; simp

/-- Equation: in a multi-line comment, any non-star character is discarded. -/
theorem run_mlc_other (p : Option Char) (ch : Char) (rest : List Char) (h : ch ≠ '*') :
    run State.MultiLineComment p (ch :: rest) =
      run State.MultiLineComment (some ch) rest := by
  rw [run.eq_def]; simp [h]

/-- Equation: in a literal, the matching quote with a non-backslash previous
character is emitted and closes the literal. -/
theorem run_string_close (q : Char) (p : Option Char) (ch : Char) (rest : List Char)
    (h : ch = q ∧ p ≠ some '\\') :
    run (State.String q) p (ch :: rest) =
      (ch :: (run State.Code (some ch) rest).1, (run State.Code (some ch) rest).2) := by
  rw [run.eq_def]; simp [h.1, h.2]

/-- Equation: in a literal, any character that does not close it (a non-quote,
or the quote right after a backslash) is emitted and the literal stays open. -/
theorem run_string_stay (q : Char) (p : Option Char) (ch : Char) (rest : List Char)
    (h : ¬(ch = q ∧ p ≠ some '\\')) :
    run (State.String q) p (ch :: rest) =
      (ch :: (run (State.String q) (some ch) rest).1,
        (run (State.String q) (some ch) rest).2) := by
  rw [run.eq_def]; simp only [if_neg h]

/-- Output length never exceeds input length, from any state. -/
theorem run_length_le (s : State) (p : Option Char) (l : List Char) :
    (run s p l).1.length ≤ l.length := by
  induction s, p, l using run.induct <;>
    first
      | ((rw [run.eq_def]; simp_all) <;> omega)
      | (rename_i h ih; rw [run.eq_def]; simp_all [if_neg h])

/-- The output is an order-preserving subsequence of the input, from any
state: every emitted character is a consumed input character, in order. -/
theorem run_sublist (s : State) (p : Option Char) (l : List Char) :
    List.Sublist (run s p l).1 l := by
  induction s, p, l using run.induct with
  | case1 s p => simp [run_nil]
  | case2 x rest2 ih => rw [run_code_slash_slash]; exact (ih.cons _).cons _
  | case3 x rest2 h ih => rw [run_code_slash_star]; exact (ih.cons _).cons _
  | case4 x next rest2 h1 h2 ih => rw [run_code_slash_other _ _ _ h1 h2]; exact ih.cons₂ _
  | case5 x => simp [run_code_slash_nil]
  | case6 x ch rest h1 h2 ih => rw [run_code_quote _ _ _ h1 h2]; exact ih.cons₂ _
  | case7 x ch rest h1 h2 ih => rw [run_code_other _ _ _ h1 h2]; exact ih.cons₂ _
  | case8 x rest ih => rw [run_slc_newline]; exact ih.cons₂ _
  | case9 x ch rest h ih => rw [run_slc_other _ _ _ h]; exact ih.cons _
  | case10 x rest2 ih => rw [run_mlc_star_slash]; exact (ih.cons _).cons _
  | case11 x next rest2 h ih => rw [run_mlc_star_other _ _ _ h]; exact ih.cons _
  | case12 x => simp [run_mlc_star_nil]
  | case13 x ch rest h ih => rw [run_mlc_other _ _ _ h]; exact ih.cons _
  | case14 q p ch rest h ih => rw [run_string_close _ _ _ _ h]; exact ih.cons₂ _
  | case15 q p ch rest h ih => rw [run_string_stay _ _ _ _ h]; exact ih.cons₂ _

/-- Inside a single-line comment, input with no newline is entirely discarded. -/
theorem run_slc_drop (a : List Char) (p : Option Char) (h : '\n' ∉ a) :
    (run State.SingleLineComment p a).1 = [] := by
  induction a generalizing p with
  | nil => simp [run_nil]
  | cons ch rest ih =>
    have h1 : ch ≠ '\n' := fun hc => h (hc ▸ List.mem_cons_self _ _)
    rw [run_slc_other _ _ _ h1]
    exact ih _ (fun hm => h (List.mem_cons_of_mem _ hm))

/-- Inside a single-line comment, everything before the first newline is
discarded, the newline itself is emitted, and the scan continues in `Code`. -/
theorem run_slc_split (a rest : List Char) (p : Option Char) (h : '\n' ∉ a) :
    run State.SingleLineComment p (a ++ '\n' :: rest) =
      ('\n' :: (run State.Code (some '\n') rest).1, (run State.Code (some '\n') rest).2) := by
  induction a generalizing p with
  | nil => simpa using run_slc_newline p rest
  | cons ch a2 ih =>
    have h1 : ch ≠ '\n' := fun hc => h (hc ▸ List.mem_cons_self _ _)
    rw [List.cons_append, run_slc_other _ _ _ h1]
    exact ih _ (fun hm => h (List.mem_cons_of_mem _ hm))

/-- Whether a character list contains the two-character closing delimiter of a
multi-line comment as a contiguous substring. -/
def hasMLCterm : List Char → Bool
  | [] => false
  | [_] => false
  | a :: b :: rest => (a = '*' && b = '/') || hasMLCterm (b :: rest)

/-- Inside a multi-line comment, input that contains no closing delimiter is
entirely discarded and the scan never leaves the comment state. -/
theorem run_mlc_drop (t : List Char) (p : Option Char) (h : hasMLCterm t = false) :
    (run State.MultiLineComment p t).1 = [] ∧
      (run State.MultiLineComment p t).2.1 = State.MultiLineComment := by
  induction t generalizing p with
  | nil => simp [run_nil]
  | cons ch rest ih =>
    by_cases hc : ch = '*'
    · subst hc
      cases rest with
      | nil => simp [run_mlc_star_nil]
      | cons next rest2 =>
        have hn : next ≠ '/' := by
          intro he
          simp [hasMLCterm, he] at h
        rw [run_mlc_star_other _ _ _ hn]
        refine ih _ ?_
        simp only [hasMLCterm, Bool.or_eq_false_iff] at h
        exact h.2
    · cases rest with
      | nil => rw [run_mlc_other _ _ _ hc]; simp [run_nil]
      | cons next rest2 =>
        rw [run_mlc_other _ _ _ hc]
        refine ih _ ?_
        simp only [hasMLCterm, Bool.or_eq_false_iff] at h
        exact h.2

/-- Dropping the head of a list cannot create a new last element. -/
theorem getLast?_tail_ne (ch c : Char) (rest : List Char)
    (h : (ch :: rest).getLast? ≠ some c) : rest.getLast? ≠ some c := by
  cases rest with
  | nil => simp
  | cons r rs => rwa [List.getLast?_cons_cons] at h

/-- Scanning a concatenation splits at a prefix whose scan ends in `Code` and
whose last character is not a slash: the scanner processes the prefix exactly
as it would alone (no lookahead reaches past it), then continues on the suffix
from `Code` with the recorded previous character. -/
theorem run_append (ys xs : List Char) (s : State) (p : Option Char) :
    (run s p xs).2.1 = State.Code → xs.getLast? ≠ some '/' →
    run s p (xs ++ ys) =
      ((run s p xs).1 ++ (run State.Code (run s p xs).2.2 ys).1,
        (run State.Code (run s p xs).2.2 ys).2) := by
  induction s, p, xs using run.induct with
  | case1 s p =>
    intro hs hl
    rw [run_nil] at hs ⊢
    simp only at hs
    subst hs
    simp
  | case2 x rest2 ih =>
    intro hs hl
    rw [run_code_slash_slash] at hs
    rw [List.cons_append, List.cons_append, run_code_slash_slash, run_code_slash_slash,
      ih hs (getLast?_tail_ne _ _ _ (getLast?_tail_ne _ _ _ hl))]
  | case3 x rest2 h ih =>
    intro hs hl
    rw [run_code_slash_star] at hs
    rw [List.cons_append, List.cons_append, run_code_slash_star, run_code_slash_star,
      ih hs (getLast?_tail_ne _ _ _ (getLast?_tail_ne _ _ _ hl))]
  | case4 x next rest2 h1 h2 ih =>
    intro hs hl
    rw [run_code_slash_other x next rest2 h1 h2] at hs
    rw [List.cons_append] at ih
    rw [List.cons_append, List.cons_append,
      run_code_slash_other x next (rest2 ++ ys) h1 h2,
      run_code_slash_other x next rest2 h1 h2,
      ih hs (getLast?_tail_ne _ _ _ hl)]
    simp
  | case5 x =>
    intro hs hl
    simp at hl
  | case6 x ch rest h1 h2 ih =>
    intro hs hl
    rw [run_code_quote x ch rest h1 h2] at hs
    rw [List.cons_append, run_code_quote x ch (rest ++ ys) h1 h2,
      run_code_quote x ch rest h1 h2,
      ih hs (getLast?_tail_ne _ _ _ hl)]
    simp
  | case7 x ch rest h1 h2 ih =>
    intro hs hl
    rw [run_code_other x ch rest h1 h2] at hs
    rw [List.cons_append, run_code_other x ch (rest ++ ys) h1 h2,
      run_code_other x ch rest h1 h2,
      ih hs (getLast?_tail_ne _ _ _ hl)]
    simp
  | case8 x rest ih =>
    intro hs hl
    rw [run_slc_newline] at hs
    rw [List.cons_append, run_slc_newline, run_slc_newline,
      ih hs (getLast?_tail_ne _ _ _ hl)]
    simp
  | case9 x ch rest h ih =>
    intro hs hl
    rw [run_slc_other x ch rest h] at hs
    rw [List.cons_append, run_slc_other x ch (rest ++ ys) h, run_slc_other x ch rest h,
      ih hs (getLast?_tail_ne _ _ _ hl)]
  | case10 x rest2 ih =>
    intro hs hl
    rw [run_mlc_star_slash] at hs
    rw [List.cons_append, List.cons_append, run_mlc_star_slash, run_mlc_star_slash,
      ih hs (getLast?_tail_ne _ _ _ (getLast?_tail_ne _ _ _ hl))]
  | case11 x next rest2 h ih =>
    intro hs hl
    rw [run_mlc_star_other x next rest2 h] at hs
    rw [List.cons_append] at ih
    rw [List.cons_append, List.cons_append,
      run_mlc_star_other x next (rest2 ++ ys) h,
      run_mlc_star_other x next rest2 h,
      ih hs (getLast?_tail_ne _ _ _ hl)]
  | case12 x =>
    intro hs hl
    rw [run_mlc_star_nil] at hs
    simp at hs
  | case13 x ch rest h ih =>
    intro hs hl
    rw [run_mlc_other x ch rest h] at hs
    rw [List.cons_append, run_mlc_other x ch (rest ++ ys) h, run_mlc_other x ch rest h,
      ih hs (getLast?_tail_ne _ _ _ hl)]
  | case14 q p ch rest h ih =>
    intro hs hl
    rw [run_string_close q p ch rest h] at hs
    rw [List.cons_append, run_string_close q p ch (rest ++ ys) h,
      run_string_close q p ch rest h,
      ih hs (getLast?_tail_ne _ _ _ hl)]
    simp
  | case15 q p ch rest h ih =>
    intro hs hl
    rw [run_string_stay q p ch rest h] at hs
    rw [List.cons_append, run_string_stay q p ch (rest ++ ys) h,
      run_string_stay q p ch rest h,
      ih hs (getLast?_tail_ne _ _ _ hl)]
    simp

/-- The last character of `c`, or the previous character `p` when `c` is
empty: the value of the scanner's previous-character register after consuming
`c` starting from `p`. -/
def lastPrev (p : Option Char) (c : List Char) : Option Char :=
  c.foldl (fun _ ch => some ch) p

/-- Checks that scanning `c` inside a literal opened by `q`, with previous
character `p`, never meets a closing quote: every occurrence of `q` in `c` is
immediately preceded by a backslash (the scanner's single-character escape
check). -/
def noEarlyClose (q : Char) : Option Char → List Char → Bool
  | _, [] => true
  | p, ch :: rest =>
    (if ch = q then decide (p = some '\\') else true) && noEarlyClose q (some ch) rest

/-- While none of its characters closes the literal, the `String` state copies
the content verbatim, and a final unescaped quote closes the literal. -/
theorem run_string_lit (c : List Char) (q : Char) (p : Option Char)
    (hq : q ≠ '\\')
    (h1 : noEarlyClose q p c = true)
    (h2 : lastPrev p c ≠ some '\\') :
    run (State.String q) p (c ++ [q]) = (c ++ [q], State.Code, some q) := by
  induction c generalizing p with
  | nil =>
    have hp : p ≠ some '\\' := by simpa [lastPrev] using h2
    rw [List.nil_append, run_string_close q p q [] ⟨rfl, hp⟩, run_nil]
  | cons ch c2 ih =>
    simp only [noEarlyClose, Bool.and_eq_true] at h1
    have hstay : ¬(ch = q ∧ p ≠ some '\\') := by
      rintro ⟨rfl, hp⟩
      simp [decide_eq_true_eq] at h1
      exact hp (by simpa using h1.1)
    have h2' : lastPrev (some ch) c2 ≠ some '\\' := by
      simpa [lastPrev] using h2
    rw [List.cons_append, run_string_stay q p ch _ hstay, ih (some ch) h1.2 h2']

/-- Recognizes input that contains no comment opener and no quote character:
no occurrence of two adjacent slashes or of slash-star, and no double or
single quote anywhere. -/
def cleanInput : List Char → Bool
  | [] => true
  | [ch] => ch != '"' && ch != '\''
  | a :: b :: rest =>
    !(a == '/' && (b == '/' || b == '*')) && (a != '"') && (a != '\'') &&
      cleanInput (b :: rest)

/-- On input with no comment openers and no quotes, the scanner copies every
character and stays in `Code`; in particular a trailing lone slash is emitted. -/
theorem run_code_clean (x : List Char) (p : Option Char) (h : cleanInput x = true) :
    (run State.Code p x).1 = x := by
  induction x generalizing p with
  | nil => simp [run_nil]
  | cons ch rest ih =>
    cases rest with
    | nil =>
      simp only [cleanInput, Bool.and_eq_true, bne_iff_ne, ne_eq] at h
      by_cases hc : ch = '/'
      · subst hc; simp [run_code_slash_nil]
      · rw [run_code_other p ch [] hc (not_or.mpr ⟨h.1, h.2⟩)]
        simp [run_nil]
    | cons next rest2 =>
      have hrest : cleanInput (next :: rest2) = true := by
        simp only [cleanInput, Bool.and_eq_true] at h
        exact h.2
      by_cases hc : ch = '/'
      · subst hc
        have hn1 : next ≠ '/' := by rintro rfl; simp [cleanInput] at h
        have hn2 : next ≠ '*' := by rintro rfl; simp [cleanInput] at h
        rw [run_code_slash_other p next rest2 hn1 hn2]
        simp [ih _ hrest]
      · have hq1 : ch ≠ '"' := by rintro rfl; simp [cleanInput] at h
        have hq2 : ch ≠ '\'' := by rintro rfl; simp [cleanInput] at h
        rw [run_code_other p ch (next :: rest2) hc (not_or.mpr ⟨hq1, hq2⟩)]
        simp [ih _ hrest]

/-- Number of input characters consumed by the loop, mirroring `run` step for
step: two when a peeked delimiter character is consumed together with the
current one, one otherwise. -/
def consumed : State → Option Char → List Char → Nat
  | _, _, [] => 0
  | State.Code, _, ch :: rest =>
    if ch = '/' then
      match rest with
      | next :: rest2 =>
        if next = '/' then 2 + consumed State.SingleLineComment (some ch) rest2
        else if next = '*' then 2 + consumed State.MultiLineComment (some ch) rest2
        else 1 + consumed State.Code (some ch) (next :: rest2)
      | [] => 1
    else if ch = '"' ∨ ch = '\'' then 1 + consumed (State.String ch) (some ch) rest
    else 1 + consumed State.Code (some ch) rest
  | State.SingleLineComment, _, ch :: rest =>
    if ch = '\n' then 1 + consumed State.Code (some ch) rest
    else 1 + consumed State.SingleLineComment (some ch) rest
  | State.MultiLineComment, _, ch :: rest =>
    if ch = '*' then
      match rest with
      | next :: rest2 =>
        if next = '/' then 2 + consumed State.Code (some ch) rest2
        else 1 + consumed State.MultiLineComment (some ch) (next :: rest2)
      | [] => 1
    else 1 + consumed State.MultiLineComment (some ch) rest
  | State.String q, p, ch :: rest =>
    if ch = q ∧ p ≠ some '\\' then 1 + consumed State.Code (some ch) rest
    else 1 + consumed (State.String q) (some ch) rest
termination_by _ _ l => l.length
decreasing_by all_goals (simp [List.length_cons]; try omega)

/-- The loop consumes every character of the input exactly once, from any
state. -/
theorem consumed_eq_length (s : State) (p : Option Char) (l : List Char) :
    consumed s p l = l.length := by
  induction s, p, l using consumed.induct <;>
    first
      | ((rw [consumed.eq_def]; simp_all) <;> omega)
      | (rename_i h ih; rw [consumed.eq_def]; simp_all [if_neg h]; omega)

/-- C1: a single well-formed literal, delimited by double or single quotes,
whose content may contain arbitrary characters including slashes and comment
delimiters, is reproduced exactly by obfuscate, quotes included; moreover in
the `String` state every consumed character is appended to the output
unconditionally. -/
theorem C1_literal_preserved (q : Char) (c : List Char)
    (hq : q = '"' ∨ q = '\'')
    (h1 : noEarlyClose q (some q) c = true)
    (h2 : lastPrev (some q) c ≠ some '\\') :
    obfuscate (q :: c ++ [q]) = q :: c ++ [q] ∧
      ∀ (p : Option Char) (ch : Char) (l : List Char),
        ∃ t, (run (State.String q) p (ch :: l)).1 = ch :: t := by
  constructor
  · have hqb : q ≠ '\\' := by rcases hq with rfl | rfl <;> decide
    have hqs : q ≠ '/' := by rcases hq with rfl | rfl <;> decide
    unfold obfuscate
    rw [List.cons_append, run_code_quote none q (c ++ [q]) hqs hq,
      run_string_lit c q (some q) hqb h1 h2]
  · intro p ch l
    by_cases hcl : ch = q ∧ p ≠ some '\\'
    · exact ⟨_, by rw [run_string_close q p ch l hcl]⟩
    · exact ⟨_, by rw [run_string_stay q p ch l hcl]⟩

/-- Witness for C1 at the double-quoted literal whose content is
a backslash-escaped quote followed by characters containing comment openers. -/
theorem C1_witness :
    ('"' = '"' ∨ '"' = '\'') ∧
    noEarlyClose '"' (some '"') ['a', '\\', '"', 'b', '/', '/', 'c', '/', '*'] = true ∧
    lastPrev (some '"') ['a', '\\', '"', 'b', '/', '/', 'c', '/', '*'] ≠ some '\\' ∧
    (obfuscate ('"' :: ['a', '\\', '"', 'b', '/', '/', 'c', '/', '*'] ++ ['"']) =
      '"' :: ['a', '\\', '"', 'b', '/', '/', 'c', '/', '*'] ++ ['"'] ∧
      ∀ (p : Option Char) (ch : Char) (l : List Char),
        ∃ t, (run (State.String '"') p (ch :: l)).1 = ch :: t) :=
  ⟨Or.inl rfl, by decide, by decide,
    C1_literal_preserved '"' ['a', '\\', '"', 'b', '/', '/', 'c', '/', '*']
      (Or.inl rfl) (by decide) (by decide)⟩

/-- C2: a single-line comment opener consumes (discards) everything up to but
not including the next newline, the newline itself is emitted, and the scanner
returns to `Code` and continues with the rest of the input. -/
theorem C2_single_line_comment (p : Option Char) (a rest : List Char) (h : '\n' ∉ a) :
    run State.Code p ('/' :: '/' :: (a ++ '\n' :: rest)) =
      ('\n' :: (run State.Code (some '\n') rest).1, (run State.Code (some '\n') rest).2) := by
  rw [run_code_slash_slash, run_slc_split a rest _ h]

/-- Witness for C2 with a one-character comment body and one trailing
character. -/
theorem C2_witness :
    '\n' ∉ ['x'] ∧
    run State.Code none ('/' :: '/' :: (['x'] ++ '\n' :: ['y'])) =
      ('\n' :: (run State.Code (some '\n') ['y']).1, (run State.Code (some '\n') ['y']).2) :=
  ⟨by decide, C2_single_line_comment none ['x'] ['y'] (by decide)⟩

/-- C3: a closing quote immediately preceded by a single backslash does not
close the literal (the check is on the single previous character only), and
the concrete input of a double-quoted literal containing a backslash-escaped
quote is returned unchanged in full. -/
theorem C3_escaped_quote :
    (∀ (q : Char) (l : List Char),
      run (State.String q) (some '\\') (q :: l) =
        (q :: (run (State.String q) (some q) l).1, (run (State.String q) (some q) l).2)) ∧
    obfuscate ['"', 'a', '\\', '"', 'b', '"'] = ['"', 'a', '\\', '"', 'b', '"'] := by
  constructor
  · intro q l
    exact run_string_stay q (some '\\') q l (by simp)
  · simp +decide [obfuscate, run]

/-- Companion lemma used for C4: a positive run of backslashes inside a
literal is copied verbatim and leaves the previous character a backslash. -/
theorem run_string_backslashes (n : Nat) (q : Char) (p : Option Char) (l : List Char)
    (hq : q ≠ '\\') :
    run (State.String q) p (List.replicate (n + 1) '\\' ++ l) =
      (List.replicate (n + 1) '\\' ++ (run (State.String q) (some '\\') l).1,
        (run (State.String q) (some '\\') l).2) := by
  induction n generalizing p with
  | zero =>
    rw [List.replicate_one, List.singleton_append,
      run_string_stay q p '\\' l (fun hc => hq hc.1.symm)]
    simp
  | succ n ih =>
    rw [List.replicate_succ, List.cons_append,
      run_string_stay q p '\\' _ (fun hc => hq hc.1.symm), ih (some '\\')]
    simp [List.replicate_succ]

/-- C4: a quote preceded by an even number of backslashes (which a real lexer
would treat as closing) is misclassified as escaped, and the scanner does not
leave the `String` state at that quote. -/
theorem C4_even_backslashes (q : Char) (p : Option Char) (k : Nat)
    (hq : q = '"' ∨ q = '\'') (hk : 0 < k) :
    run (State.String q) p (List.replicate (2 * k) '\\' ++ [q]) =
      (List.replicate (2 * k) '\\' ++ [q], State.String q, some q) := by
  have hqb : q ≠ '\\' := by rcases hq with rfl | rfl <;> decide
  obtain ⟨m, rfl⟩ : ∃ m, k = m + 1 := ⟨k - 1, by omega⟩
  have h2 : 2 * (m + 1) = (2 * m + 1) + 1 := by ring
  rw [h2, run_string_backslashes (2 * m + 1) q p [q] hqb,
    run_string_stay q (some '\\') q [] (by simp), run_nil]

/-- Witness for C4 with two backslashes before the closing quote. -/
theorem C4_witness :
    ('"' = '"' ∨ '"' = '\'') ∧ 0 < 1 ∧
    run (State.String '"') none (List.replicate (2 * 1) '\\' ++ ['"']) =
      (List.replicate (2 * 1) '\\' ++ ['"'], State.String '"', some '"') :=
  ⟨Or.inl rfl, by decide, C4_even_backslashes '"' none 1 (Or.inl rfl) (by decide)⟩

/-- C5 as literally stated is false: the prefix consisting of a letter and a
lone trailing slash ends its scan in `Code`, the suffix contains no newline,
yet appending a single-line comment opener and that suffix changes the result,
because the prefix's trailing slash merges with the opener. -/
theorem C5_counterexample :
    (run State.Code none ['a', '/']).2.1 = State.Code ∧
    '\n' ∉ ['x'] ∧
    obfuscate (['a', '/'] ++ '/' :: '/' :: ['x']) ≠ obfuscate ['a', '/'] := by
  refine ⟨by simp +decide [run], by decide, ?_⟩
  simp +decide [obfuscate, run]

/-- C5 (amended): if the scan of a prefix ends in the `Code` state and the
prefix does not end with a slash, then appending a single-line comment opener
plus a newline-free suffix, or a multi-line comment opener plus a suffix
containing no closing delimiter, leaves the output exactly that of the prefix:
the unterminated comment is dropped silently, without error. -/
theorem C5_amended (p t : List Char)
    (hs : (run State.Code none p).2.1 = State.Code)
    (hl : p.getLast? ≠ some '/') :
    ('\n' ∉ t → obfuscate (p ++ '/' :: '/' :: t) = obfuscate p) ∧
    (hasMLCterm t = false → obfuscate (p ++ '/' :: '*' :: t) = obfuscate p) := by
  constructor
  · intro ht
    unfold obfuscate
    rw [run_append ('/' :: '/' :: t) p State.Code none hs hl, run_code_slash_slash]
    simp [run_slc_drop t _ ht]
  · intro ht
    unfold obfuscate
    rw [run_append ('/' :: '*' :: t) p State.Code none hs hl, run_code_slash_star]
    simp [(run_mlc_drop t _ ht).1]

/-- Witness for the amended C5 on a two-letter prefix with both kinds of
unterminated comment. -/
theorem C5_amended_witness :
    obfuscate (['a', 'b'] ++ '/' :: '/' :: ['x', '*']) = obfuscate ['a', 'b'] ∧
    obfuscate (['a', 'b'] ++ '/' :: '*' :: ['x', '*']) = obfuscate ['a', 'b'] :=
  ⟨(C5_amended ['a', 'b'] ['x', '*'] (by simp +decide [run]) (by decide)).1 (by decide),
    (C5_amended ['a', 'b'] ['x', '*'] (by simp +decide [run]) (by decide)).2 (by decide)⟩

/-- C6: the output is never longer than the input. -/
theorem C6_length_le (x : List Char) : (obfuscate x).length ≤ x.length :=
  run_length_le State.Code none x

/-- C7: input containing no comment opener and no quote character is a fixed
point of obfuscate; this includes inputs ending in a lone slash. -/
theorem C7_clean_fixed_point (x : List Char) (h : cleanInput x = true) :
    obfuscate x = x :=
  run_code_clean x none h

/-- Witness for C7 on letters followed by a lone trailing slash. -/
theorem C7_witness :
    cleanInput ['a', 'b', '/'] = true ∧ obfuscate ['a', 'b', '/'] = ['a', 'b', '/'] :=
  ⟨by decide, C7_clean_fixed_point ['a', 'b', '/'] (by decide)⟩

/-- C8: the scan is total: from the initial state it consumes every character
of any input exactly once and terminates, and the empty input yields the
empty output. -/
theorem C8_total_consumption :
    (∀ (x : List Char), consumed State.Code none x = x.length) ∧
      obfuscate [] = [] := by
  constructor
  · intro x
    exact consumed_eq_length State.Code none x
  · simp [obfuscate, run_nil]

/-- C9 as literally stated is false: the line-boundary character is emitted,
not discarded, by the single-line comment state. -/
theorem C9_counterexample :
    (run State.SingleLineComment none ['a', '\n']).1 ≠ [] ∧
    (run State.SingleLineComment none ['a', '\n']).1 = ['\n'] := by
  constructor <;> simp +decide [run]

/-- C9 (amended): in the single-line comment state all characters are
discarded up to but not including the line boundary; the line boundary itself
is emitted and the scanner returns to `Code`. -/
theorem C9_amended (p : Option Char) (a : List Char) (h : '\n' ∉ a) :
    run State.SingleLineComment p (a ++ ['\n']) = (['\n'], State.Code, some '\n') := by
  rw [run_slc_split a [] p h, run_nil]

/-- Witness for the amended C9 on a two-character comment body. -/
theorem C9_amended_witness :
    '\n' ∉ ['q', 'w'] ∧
    run State.SingleLineComment none (['q', 'w'] ++ ['\n']) =
      (['\n'], State.Code, some '\n') :=
  ⟨by decide, C9_amended none ['q', 'w'] (by decide)⟩

/-- C10: the output is an order-preserving, not necessarily contiguous,
subsequence of the input: every output character is a consumed input
character, emitted in input order, never synthesized or duplicated. -/
theorem C10_sublist (x : List Char) : List.Sublist (obfuscate x) x :=
  run_sublist State.Code none x

end CommentStripping
